import Mathlib

/-!
Verification development for the modlib IT decoders.

This file gives a shallow embedding of the three core components of the
repository — the little-endian bit stream (`bitstream.read`), the IT
compressed-sample codec (`ItSampleCodec.Decode` / `decodeChunk`), and the
pattern stream decoder (`ItPattern.ToCommon`, and `loadPattern` from the
older revision of the loader) — together with theorems settling the frozen
claims about them.

Machine integers are modelled as `Nat`/`Int`: Go `uint8` subtraction is
`(a + 256 - b) % 256`, the `uint64` bit buffer carries an explicit
`% 2 ^ 64`, and Go `int16` truncation is `toInt16` below.  Byte streams
are `List Nat` (each element < 256 where it matters), consumed from the
front, so Go's `readPos`/`dataRead` cursor into a fixed slice becomes the
remaining suffix of the list.
-/

namespace Modlib

/-- Error values of the itmod package (`ErrEndOfStream`, `ErrBadParam`,
`ErrDecodingError`, `ErrInvalidSource`, plus the opaque `io`/`binary.Read`
failures of `getChunk`, modelled as `readError`). -/
inductive ItErr where
  | endOfStream
  | badParam
  | decodingError
  | invalidSource
  | readError
  deriving DecidableEq, Repr

/-- Go struct `bitstream`: `source` plus `readPos` are modelled as the
remaining suffix of the source byte slice; `buffer` is the 64-bit
accumulator, `buffered` the number of valid bits in it. -/
structure Bitstream where
  source : List Nat
  buffer : Nat
  buffered : Nat
  deriving DecidableEq, Repr

/-- `createBitstream`: wrap a byte slice for reading. -/
def createBitstream (source : List Nat) : Bitstream :=
  { source := source, buffer := 0, buffered := 0 }

/-- The `for bs.buffered < width` refill loop inside `bitstream.read`:
pull whole bytes into the accumulator until `width` bits are buffered.
Returns `false` (with the mutated state) when the source runs dry, which
is Go's `ErrEndOfStream` early return. -/
def fillBits (source : List Nat) (buffer buffered width : Nat) :
    Bool × List Nat × Nat × Nat :=
  if buffered < width then
    match source with
    | [] => (false, [], buffer, buffered)
    | b :: rest => fillBits rest ((buffer ||| b <<< buffered) % 2 ^ 64) (buffered + 8) width
  else (true, source, buffer, buffered)

/-- `bitstream.read`: validates `0 ≤ width < 32`, refills the buffer, then
extracts the low `width` bits.  Mirrors the Go method including the state
left behind on each error path (Go mutates the receiver in place, so the
error carries the post-mutation state). -/
def bsRead (bs : Bitstream) (width : Int) : Except (ItErr × Bitstream) (Nat × Bitstream) :=
  if width < 0 ∨ 32 ≤ width then .error (.badParam, bs)
  else
    let w := width.toNat
    match fillBits bs.source bs.buffer bs.buffered w with
    | (false, src, buf, cnt) => .error (.endOfStream, ⟨src, buf, cnt⟩)
    | (true, src, buf, cnt) => .ok (buf &&& (2 ^ w - 1), ⟨src, buf >>> w, cnt - w⟩)

/-- Bits still obtainable from the stream. -/
def avail (bs : Bitstream) : Nat := bs.buffered + 8 * bs.source.length

/-- Little-endian value of a byte list. -/
def bytesVal : List Nat → Nat
  | [] => 0
  | b :: rest => b + 256 * bytesVal rest

/-- The entire remaining bit string of the stream, as a natural number
(bit 0 is the next bit `read` will deliver). -/
def tailN (bs : Bitstream) : Nat := bs.buffer + bytesVal bs.source * 2 ^ bs.buffered

/-- All bytes of the source are in range. -/
def GoodBytes (l : List Nat) : Prop := ∀ b ∈ l, b < 256

/-- States reachable from `createBitstream` on in-range bytes: the
buffer holds exactly `buffered` valid bits and `buffered` stays small
(at most 30 + 8 from the refill loop). -/
def BsInv (bs : Bitstream) : Prop :=
  bs.buffer < 2 ^ bs.buffered ∧ bs.buffered ≤ 38 ∧ GoodBytes bs.source

theorem bsInv_create (source : List Nat) (h : GoodBytes source) :
    BsInv (createBitstream source) := by
  refine ⟨by simp [createBitstream], by simp [createBitstream], ?_⟩
  simpa [createBitstream] using h

theorem fillBits_spec (source : List Nat) (buffer buffered width : Nat)
    (hw : width ≤ 31) (hbuf : buffer < 2 ^ buffered) (hcnt : buffered ≤ 38)
    (hgood : GoodBytes source) :
    ∃ ok src' buf' cnt', fillBits source buffer buffered width = (ok, src', buf', cnt') ∧
      buf' < 2 ^ cnt' ∧ cnt' ≤ 38 ∧ GoodBytes src' ∧
      cnt' + 8 * src'.length = buffered + 8 * source.length ∧
      buf' + bytesVal src' * 2 ^ cnt' = buffer + bytesVal source * 2 ^ buffered ∧
      (ok = true → width ≤ cnt') ∧
      (ok = false → src' = [] ∧ buffered + 8 * source.length < width) := by
  induction source generalizing buffer buffered with
  | nil =>
    by_cases h : buffered < width
    · refine ⟨false, [], buffer, buffered, by simp [fillBits, h], hbuf, hcnt, hgood, rfl, rfl,
        by simp, fun _ => ⟨rfl, by simpa using h⟩⟩
    · exact ⟨true, [], buffer, buffered, by simp [fillBits, h], hbuf, hcnt, hgood, rfl, rfl,
        fun _ => Nat.le_of_not_lt h, by simp⟩
  | cons b rest ih =>
    by_cases h : buffered < width
    · have hb : b < 256 := hgood b (by simp)
      have hcnt8 : buffered + 8 ≤ 38 := by omega
      have hshift : b <<< buffered = b * 2 ^ buffered := Nat.shiftLeft_eq b buffered
      have hor : buffer ||| b <<< buffered = buffer + b * 2 ^ buffered := by
        have h0 := Nat.mul_add_lt_is_or (i := buffered) hbuf b
        rw [hshift, Nat.or_comm, Nat.mul_comm b (2 ^ buffered)]
        omega
      have hlt : buffer + b * 2 ^ buffered < 2 ^ (buffered + 8) := by
        have h1 : buffer < 2 ^ buffered := hbuf
        have h2 : b * 2 ^ buffered ≤ 255 * 2 ^ buffered :=
          Nat.mul_le_mul_right _ (by omega)
        have h3 : 2 ^ (buffered + 8) = 2 ^ buffered * 256 := by
          rw [Nat.pow_add]
        omega
      have hmod : (buffer ||| b <<< buffered) % 2 ^ 64 = buffer + b * 2 ^ buffered := by
        rw [hor]
        exact Nat.mod_eq_of_lt (lt_of_lt_of_le hlt (Nat.pow_le_pow_right (by norm_num) (by omega)))
      have hrest : GoodBytes rest := fun x hx => hgood x (by simp [hx])
      obtain ⟨ok, src', buf', cnt', heq, h1, h2, h3, h4, h5, h6, h7⟩ :=
        ih ((buffer ||| b <<< buffered) % 2 ^ 64) (buffered + 8) (by rw [hmod]; exact hlt)
          hcnt8 hrest
      refine ⟨ok, src', buf', cnt', ?_, h1, h2, h3, ?_, ?_, h6, ?_⟩
      · have hstep : fillBits (b :: rest) buffer buffered width =
            fillBits rest ((buffer ||| b <<< buffered) % 2 ^ 64) (buffered + 8) width := by
          rw [fillBits.eq_def, if_pos h]
        rw [hstep]; exact heq
      · simp only [List.length_cons]; omega
      · rw [h5, hmod, bytesVal]
        have : bytesVal rest * 2 ^ (buffered + 8) = 256 * bytesVal rest * 2 ^ buffered := by
          rw [Nat.pow_add]; ring
        rw [this]; ring
      · intro hok
        obtain ⟨ha, hb'⟩ := h7 hok
        refine ⟨ha, ?_⟩
        simp only [List.length_cons] at hb' ⊢
        omega
    · exact ⟨true, b :: rest, buffer, buffered, by simp [fillBits, h], hbuf, hcnt, hgood, rfl,
        rfl, fun _ => Nat.le_of_not_lt h, by simp⟩

theorem bsRead_ok (bs : Bitstream) (width : Int) (hinv : BsInv bs)
    (h0 : 0 ≤ width) (h32 : width < 32) (hav : width.toNat ≤ avail bs) :
    ∃ bs', bsRead bs width = .ok (tailN bs % 2 ^ width.toNat, bs') ∧ BsInv bs' ∧
      tailN bs' = tailN bs / 2 ^ width.toNat ∧ avail bs' = avail bs - width.toNat := by
  obtain ⟨hbuf, hcnt, hgood⟩ := hinv
  have hguard : ¬(width < 0 ∨ 32 ≤ width) := by omega
  have hw31 : width.toNat ≤ 31 := by omega
  obtain ⟨ok, src', buf', cnt', heq, h1, h2, h3, h4, h5, h6, h7⟩ :=
    fillBits_spec bs.source bs.buffer bs.buffered width.toNat hw31 hbuf hcnt hgood
  cases ok with
  | false =>
    obtain ⟨-, hlt⟩ := h7 rfl
    exact absurd hav (by unfold avail at *; omega)
  | true =>
    have hwc : width.toNat ≤ cnt' := h6 rfl
    set w := width.toNat with hwdef
    have hpow : (0:Nat) < 2 ^ w := Nat.pos_pow_of_pos w (by norm_num)
    have hsplit : 2 ^ cnt' = 2 ^ (cnt' - w) * 2 ^ w := by
      rw [← Nat.pow_add]
      congr 1
      omega
    refine ⟨⟨src', buf' >>> w, cnt' - w⟩, ?_, ⟨?_, by show cnt' - w ≤ 38; omega, h3⟩, ?_, ?_⟩
    · unfold bsRead
      rw [if_neg hguard]
      simp only [heq]
      congr 2
      rw [Nat.and_pow_two_sub_one_eq_mod]
      unfold tailN
      rw [← h5, hsplit, ← Nat.mul_assoc, Nat.add_mul_mod_self_right]
    · simp only [Nat.shiftRight_eq_div_pow]
      exact Nat.div_lt_of_lt_mul (by rw [Nat.mul_comm, ← hsplit]; exact h1)
    · unfold tailN
      simp only [Nat.shiftRight_eq_div_pow]
      rw [← h5, hsplit, ← Nat.mul_assoc, Nat.add_mul_div_right _ _ hpow]
    · show cnt' - w + 8 * src'.length = avail bs - w
      unfold avail
      omega

theorem bsRead_err (bs : Bitstream) (width : Int) (hinv : BsInv bs)
    (h0 : 0 ≤ width) (h32 : width < 32) (hav : avail bs < width.toNat) :
    ∃ bs', bsRead bs width = .error (.endOfStream, bs') ∧ BsInv bs' ∧
      tailN bs' = tailN bs ∧ avail bs' = avail bs := by
  obtain ⟨hbuf, hcnt, hgood⟩ := hinv
  have hguard : ¬(width < 0 ∨ 32 ≤ width) := by omega
  have hw31 : width.toNat ≤ 31 := by omega
  obtain ⟨ok, src', buf', cnt', heq, h1, h2, h3, h4, h5, h6, h7⟩ :=
    fillBits_spec bs.source bs.buffer bs.buffered width.toNat hw31 hbuf hcnt hgood
  cases ok with
  | true =>
    have := h6 rfl
    exact absurd hav (by unfold avail at *; omega)
  | false =>
    obtain ⟨hsrc, -⟩ := h7 rfl
    subst hsrc
    refine ⟨⟨[], buf', cnt'⟩, ?_, ⟨h1, h2, by intro b hb; simp at hb⟩, ?_, ?_⟩
    · unfold bsRead
      rw [if_neg hguard]
      simp only [heq]
    · unfold tailN at *
      simp only [bytesVal] at *
      omega
    · unfold avail at *
      simp only [List.length_nil] at *
      omega

/-- Observable outcome of a single read: the value delivered, or the error
kind, with the mutated stream state hidden. -/
def readObs (bs : Bitstream) (width : Int) : Except ItErr Nat :=
  match bsRead bs width with
  | .error (e, _) => .error e
  | .ok (v, _) => .ok v

theorem readObs_congr (bs1 bs2 : Bitstream) (hinv1 : BsInv bs1) (hinv2 : BsInv bs2)
    (ht : tailN bs1 = tailN bs2) (ha : avail bs1 = avail bs2) (w : Int) :
    readObs bs1 w = readObs bs2 w := by
  by_cases hg : w < 0 ∨ 32 ≤ w
  · unfold readObs bsRead
    rw [if_pos hg, if_pos hg]
  · push_neg at hg
    obtain ⟨h0, h32⟩ := hg
    by_cases hav : w.toNat ≤ avail bs1
    · obtain ⟨bs1', he1, -, -, -⟩ := bsRead_ok bs1 w hinv1 h0 h32 hav
      obtain ⟨bs2', he2, -, -, -⟩ := bsRead_ok bs2 w hinv2 h0 h32 (ha ▸ hav)
      unfold readObs
      rw [he1, he2, ht]
    · push_neg at hav
      obtain ⟨bs1', he1, -, -, -⟩ := bsRead_err bs1 w hinv1 h0 h32 hav
      obtain ⟨bs2', he2, -, -, -⟩ := bsRead_err bs2 w hinv2 h0 h32 (ha ▸ hav)
      unfold readObs
      rw [he1, he2]

/-- Claim C5: for a reachable stream state and a valid width,
`bitstream.read` fails with `EndOfStream` exactly when the requested width
exceeds the bits still available; and a failed read changes nothing
observable: the remaining bit string and bit count are untouched, and any
later read returns exactly what it would have returned without the failed
call. -/
theorem c5_read_endOfStream_exact_no_side_effect (bs : Bitstream) (width : Int)
    (hinv : BsInv bs) (h0 : 0 ≤ width) (h32 : width < 32) :
    ((∃ bs', bsRead bs width = .error (.endOfStream, bs')) ↔ avail bs < width.toNat) ∧
    (∀ bs', bsRead bs width = .error (.endOfStream, bs') →
      BsInv bs' ∧ tailN bs' = tailN bs ∧ avail bs' = avail bs ∧
      ∀ w' : Int, readObs bs' w' = readObs bs w') := by
  by_cases hav : width.toNat ≤ avail bs
  · obtain ⟨bs', he, -, -, -⟩ := bsRead_ok bs width hinv h0 h32 hav
    constructor
    · constructor
      · rintro ⟨bs'', he2⟩
        rw [he] at he2
        exact absurd he2 (by simp)
      · omega
    · intro bs'' he2
      rw [he] at he2
      exact absurd he2 (by simp)
  · push_neg at hav
    obtain ⟨bs', he, hi, ht, ha⟩ := bsRead_err bs width hinv h0 h32 hav
    constructor
    · exact ⟨fun _ => hav, fun _ => ⟨_, he⟩⟩
    · intro bs'' he2
      rw [he] at he2
      injection he2 with he2
      injection he2 with he2a he2b
      subst he2b
      exact ⟨hi, ht, ha, fun w' => readObs_congr _ _ hi hinv ht ha w'⟩

/-- Witness for C5 at a concrete input: a one-byte stream, `read(12)`. -/
theorem c5_witness :
    ((∃ bs', bsRead (createBitstream [5]) 12 = .error (.endOfStream, bs')) ↔
      avail (createBitstream [5]) < (12:Int).toNat) ∧
    (∀ bs', bsRead (createBitstream [5]) 12 = .error (.endOfStream, bs') →
      BsInv bs' ∧ tailN bs' = tailN (createBitstream [5]) ∧
      avail bs' = avail (createBitstream [5]) ∧
      ∀ w' : Int, readObs bs' w' = readObs (createBitstream [5]) w') :=
  c5_read_endOfStream_exact_no_side_effect (createBitstream [5]) 12
    (bsInv_create [5] (by intro b hb; simp at hb; omega)) (by norm_num) (by norm_num)

/-- Values delivered by a sequence of reads (`none` as soon as one fails). -/
def bsReadVals (bs : Bitstream) : List Int → Option (List Nat)
  | [] => some []
  | w :: ws =>
    match bsRead bs w with
    | .error _ => none
    | .ok (v, bs') => (bsReadVals bs' ws).map (v :: ·)

/-- Recombine the values of a sequence of reads into the single natural
number formed by concatenating them LSB-first with the correct shifts. -/
def recombine : List Nat → List Int → Nat
  | v :: vs, w :: ws => v + recombine vs ws * 2 ^ w.toNat
  | _, _ => 0

/-- Total requested width of a sequence of reads. -/
def sumW (ws : List Int) : Nat := (ws.map Int.toNat).sum

theorem bsReadVals_recombine (ws : List Int) (bs : Bitstream) (hinv : BsInv bs)
    (hws : ∀ w ∈ ws, 0 ≤ w ∧ w < 32) (hav : sumW ws ≤ avail bs) :
    ∃ vs, bsReadVals bs ws = some vs ∧ recombine vs ws = tailN bs % 2 ^ sumW ws := by
  induction ws generalizing bs with
  | nil => exact ⟨[], rfl, by simp [recombine, sumW, Nat.mod_one]⟩
  | cons w ws ih =>
    obtain ⟨h0, h32⟩ := hws w (by simp)
    have hsum : sumW (w :: ws) = w.toNat + sumW ws := by simp [sumW]
    have hav1 : w.toNat ≤ avail bs := by omega
    obtain ⟨bs', he, hi', ht', ha'⟩ := bsRead_ok bs w hinv h0 h32 hav1
    obtain ⟨vs, hvs, hrec⟩ := ih bs' hi' (fun x hx => hws x (by simp [hx])) (by omega)
    refine ⟨tailN bs % 2 ^ w.toNat :: vs, ?_, ?_⟩
    · simp only [bsReadVals, he, hvs]
      rfl
    · show tailN bs % 2 ^ w.toNat + recombine vs ws * 2 ^ w.toNat = _
      rw [hrec, ht', hsum, Nat.pow_add, Nat.mod_mul]
      ring

/-- Claim C6: for any reachable stream state and any two width-request
sequences (each width in `0..31`) with equal total width not exceeding the
available bits, reading them sequentially succeeds and yields the same
underlying bit string once the values are recombined with the correct
shifts. -/
theorem c6_read_chunking_invariance (bs : Bitstream) (ws1 ws2 : List Int)
    (hinv : BsInv bs)
    (h1 : ∀ w ∈ ws1, 0 ≤ w ∧ w < 32) (h2 : ∀ w ∈ ws2, 0 ≤ w ∧ w < 32)
    (hsum : sumW ws1 = sumW ws2) (hav : sumW ws1 ≤ avail bs) :
    ∃ vs1 vs2, bsReadVals bs ws1 = some vs1 ∧ bsReadVals bs ws2 = some vs2 ∧
      recombine vs1 ws1 = recombine vs2 ws2 := by
  obtain ⟨vs1, he1, hr1⟩ := bsReadVals_recombine ws1 bs hinv h1 hav
  obtain ⟨vs2, he2, hr2⟩ := bsReadVals_recombine ws2 bs hinv h2 (hsum ▸ hav)
  exact ⟨vs1, vs2, he1, he2, by rw [hr1, hr2, hsum]⟩

/-- Witness for C6: one `read(12)` against `read(4)` then `read(8)` on the
byte pair `0xAB 0xCD`. -/
theorem c6_witness :
    ∃ vs1 vs2, bsReadVals (createBitstream [0xAB, 0xCD]) [12] = some vs1 ∧
      bsReadVals (createBitstream [0xAB, 0xCD]) [4, 8] = some vs2 ∧
      recombine vs1 [12] = recombine vs2 [4, 8] :=
  c6_read_chunking_invariance (createBitstream [0xAB, 0xCD]) [12] [4, 8]
    (bsInv_create _ (by intro b hb; simp at hb; omega))
    (by intro w hw; simp at hw; omega)
    (by intro w hw; simp at hw; rcases hw with h | h <;> omega)
    (by simp [sumW]) (by simp [sumW, avail, createBitstream])

theorem fillBits_buffered_le (source : List Nat) (buffer buffered width : Nat)
    (hw : width ≤ 31) :
    ∀ ok src' buf' cnt', fillBits source buffer buffered width = (ok, src', buf', cnt') →
      cnt' ≤ max buffered 38 := by
  induction source generalizing buffer buffered with
  | nil =>
    intro ok src' buf' cnt' heq
    unfold fillBits at heq
    by_cases h : buffered < width
    · rw [if_pos h] at heq
      injection heq with _ heq
      injection heq with _ heq
      injection heq with _ heq
      omega
    · rw [if_neg h] at heq
      injection heq with _ heq
      injection heq with _ heq
      injection heq with _ heq
      omega
  | cons b rest ih =>
    intro ok src' buf' cnt' heq
    unfold fillBits at heq
    by_cases h : buffered < width
    · rw [if_pos h] at heq
      have := ih ((buffer ||| b <<< buffered) % 2 ^ 64) (buffered + 8) ok src' buf' cnt' heq
      omega
    · rw [if_neg h] at heq
      injection heq with _ heq
      injection heq with _ heq
      injection heq with _ heq
      omega

/-- State after one read, whatever its outcome (Go mutates the receiver in
place, so the caller keeps this state even on failure). -/
def afterRead (bs : Bitstream) (w : Int) : Bitstream :=
  match bsRead bs w with
  | .error (_, bs') => bs'
  | .ok (_, bs') => bs'

/-- State of a freshly created stream after an arbitrary sequence of read
calls, successful or not. -/
def afterReads (source : List Nat) (ws : List Int) : Bitstream :=
  ws.foldl afterRead (createBitstream source)

theorem afterRead_buffered_lt (bs : Bitstream) (w : Int) (h : bs.buffered < 64) :
    (afterRead bs w).buffered < 64 := by
  unfold afterRead bsRead
  by_cases hg : w < 0 ∨ 32 ≤ w
  · rw [if_pos hg]
    exact h
  · rw [if_neg hg]
    have hw31 : w.toNat ≤ 31 := by omega
    rcases heq : fillBits bs.source bs.buffer bs.buffered w.toNat with ⟨ok, src', buf', cnt'⟩
    have hle := fillBits_buffered_le bs.source bs.buffer bs.buffered w.toNat hw31
      ok src' buf' cnt' heq
    cases ok with
    | false => simp only [heq]; omega
    | true => simp only [heq]; omega

/-- Claim C9: starting from a freshly created bit stream, after every
sequence of read calls (succeeding or failing) the number of buffered bits
satisfies `0 ≤ buffered < 64`, so the 64-bit accumulator never overflows. -/
theorem c9_buffered_invariant (source : List Nat) (ws : List Int) :
    0 ≤ (afterReads source ws).buffered ∧ (afterReads source ws).buffered < 64 := by
  refine ⟨Nat.zero_le _, ?_⟩
  unfold afterReads
  have hgen : ∀ (l : List Int) (bs : Bitstream), bs.buffered < 64 →
      (l.foldl afterRead bs).buffered < 64 := by
    intro l
    induction l with
    | nil => intro bs h; exact h
    | cons w ws ih =>
      intro bs h
      exact ih (afterRead bs w) (afterRead_buffered_lt bs w h)
  exact hgen ws (createBitstream source) (by simp [createBitstream])

theorem fillBits_avail (source : List Nat) (buffer buffered width : Nat) :
    ∀ ok src' buf' cnt', fillBits source buffer buffered width = (ok, src', buf', cnt') →
      cnt' + 8 * src'.length = buffered + 8 * source.length ∧
      (ok = true → width ≤ cnt') := by
  induction source generalizing buffer buffered with
  | nil =>
    intro ok src' buf' cnt' heq
    unfold fillBits at heq
    by_cases h : buffered < width
    · rw [if_pos h] at heq
      injection heq with h1 heq
      injection heq with h2 heq
      injection heq with h3 h4
      subst h1 h2 h3 h4
      exact ⟨by simp, by intro hh; exact absurd hh (by simp)⟩
    · rw [if_neg h] at heq
      injection heq with h1 heq
      injection heq with h2 heq
      injection heq with h3 h4
      subst h1 h2 h3 h4
      exact ⟨rfl, fun _ => Nat.le_of_not_lt h⟩
  | cons b rest ih =>
    intro ok src' buf' cnt' heq
    unfold fillBits at heq
    by_cases h : buffered < width
    · rw [if_pos h] at heq
      obtain ⟨ha, hb⟩ := ih ((buffer ||| b <<< buffered) % 2 ^ 64) (buffered + 8)
        ok src' buf' cnt' heq
      refine ⟨?_, hb⟩
      simp only [List.length_cons]
      omega
    · rw [if_neg h] at heq
      injection heq with h1 heq
      injection heq with h2 heq
      injection heq with h3 h4
      subst h1 h2 h3 h4
      exact ⟨rfl, fun _ => Nat.le_of_not_lt h⟩

theorem bsRead_ok_avail (bs : Bitstream) (w : Int) (v : Nat) (bs' : Bitstream)
    (h : bsRead bs w = .ok (v, bs')) : avail bs' + w.toNat = avail bs := by
  unfold bsRead at h
  by_cases hg : w < 0 ∨ 32 ≤ w
  · rw [if_pos hg] at h
    exact absurd h (by simp)
  · rw [if_neg hg] at h
    rcases heq : fillBits bs.source bs.buffer bs.buffered w.toNat with ⟨ok, src', buf', cnt'⟩
    obtain ⟨ha, hb⟩ := fillBits_avail bs.source bs.buffer bs.buffered w.toNat ok src' buf' cnt' heq
    cases ok with
    | false =>
      simp only [heq] at h
      exact Except.noConfusion h
    | true =>
      simp only [heq] at h
      injection h with h
      injection h with h1 h2
      subst h2
      have hwc := hb rfl
      show cnt' - w.toNat + 8 * src'.length + w.toNat = bs.buffered + 8 * bs.source.length
      omega

/-! ### ItSampleCodec (src/itmod/itsamplecodec.go) -/

/-- Go struct `ItSampleCodec`. -/
structure ItSampleCodec where
  It215 : Bool
  Is16 : Bool

/-- Go struct `ItSampleCodecParams`. -/
structure ItSampleCodecParams where
  lowerTab : List Int
  upperTab : List Int
  fetchA : Nat
  lowerB : Int
  upperB : Int
  defWidth : Nat
  mask : Nat

/-- Algorithm parameters for 16-bit samples. -/
def ItSampleCodecParams16 : ItSampleCodecParams :=
  { lowerTab := [0, -1, -3, -7, -15, -31, -56, -120, -248, -504, -1016, -2040, -4088,
      -8184, -16376, -32760, -32768]
    upperTab := [0, 1, 3, 7, 15, 31, 55, 119, 247, 503, 1015, 2039, 4087, 8183, 16375,
      32759, 32767]
    fetchA := 4
    lowerB := -8
    upperB := 7
    defWidth := 17
    mask := 0xFFFF }

/-- Algorithm parameters for 8-bit samples. -/
def ItSampleCodecParams8 : ItSampleCodecParams :=
  { lowerTab := [0, -1, -3, -7, -15, -31, -60, -124, -128]
    upperTab := [0, 1, 3, 7, 15, 31, 59, 123, 127]
    fetchA := 3
    lowerB := -4
    upperB := 3
    defWidth := 9
    mask := 0xFF }

/-- The `changeWidth` closure of `decodeChunk`: increment the width code,
skipping over the current width. -/
def changeWidth (width toWidth : Nat) : Nat :=
  let t := toWidth + 1
  if width ≤ t then t + 1 else t

theorem changeWidth_pos (width toWidth : Nat) : 1 ≤ changeWidth width toWidth := by
  simp only [changeWidth]
  split <;> omega

/-- Go `int16(x)`: two's-complement truncation of a 64-bit int to 16 bits. -/
def toInt16 (x : Int) : Int := (x + 32768) % 65536 - 32768

/-- The `write` closure of `decodeChunk`: sign-extend `v` against `topBit`,
accumulate into `mem1`/`mem2`, and emit the truncated accumulator
(`mem2` in It215 mode, `mem1` otherwise).  Returns the new accumulators
and the emitted element. -/
def codecWrite (c : ItSampleCodec) (mem1 mem2 : Int) (v : Nat) (topBit : Nat) :
    Int × Int × Int :=
  let sv : Int := if v &&& topBit ≠ 0 then (v : Int) - 2 * topBit else (v : Int)
  let m1 := mem1 + sv
  let m2 := mem2 + m1
  (m1, m2, toInt16 (if c.It215 then m2 else m1))

/-- The `for curLength > 0` loop of `decodeChunk`: the adaptive-width delta
decoder over one chunk's bit stream.  `v &&& (topBit - 1)` renders Go's
`v & ^topBit` (clear the top bit), equal to it on every value `read`
delivers since those are below `2 ^ width`.  The hypothesis `1 ≤ width`
records that Go would panic (negative shift) on width 0, which no
reachable call produces. -/
def decodeChunkLoop (c : ItSampleCodec) (props : ItSampleCodecParams) (bs : Bitstream)
    (width : Nat) (mem1 mem2 : Int) (curLength : Nat) (hw : 1 ≤ width) :
    Except ItErr (List Int) :=
  if curLength = 0 then .ok []
  else if props.defWidth < width then .error .decodingError
  else
    match h1 : bsRead bs (width : Int) with
    | .error (e, _) => .error e
    | .ok (v, bs1) =>
      let topBit : Nat := 1 <<< (width - 1)
      if width ≤ 6 then
        if v = topBit then
          match h2 : bsRead bs1 (props.fetchA : Int) with
          | .error (e, _) => .error e
          | .ok (t, bs2) =>
            decodeChunkLoop c props bs2 (changeWidth width t) mem1 mem2 curLength
              (changeWidth_pos width t)
        else
          match codecWrite c mem1 mem2 v topBit with
          | (m1, m2, e) =>
            match decodeChunkLoop c props bs1 width m1 m2 (curLength - 1) hw with
            | .error err => .error err
            | .ok rest => .ok (e :: rest)
      else if width < props.defWidth then
        if (topBit : Int) + props.lowerB ≤ (v : Int) ∧ (v : Int) ≤ (topBit : Int) + props.upperB then
          decodeChunkLoop c props bs1
            (changeWidth width ((v : Int) - ((topBit : Int) + props.lowerB)).toNat) mem1 mem2
            curLength (changeWidth_pos width _)
        else
          match codecWrite c mem1 mem2 v topBit with
          | (m1, m2, e) =>
            match decodeChunkLoop c props bs1 width m1 m2 (curLength - 1) hw with
            | .error err => .error err
            | .ok rest => .ok (e :: rest)
      else
        if v &&& topBit ≠ 0 then
          decodeChunkLoop c props bs1 ((v &&& (topBit - 1)) + 1) mem1 mem2 curLength
            (by omega)
        else
          match codecWrite c mem1 mem2 (v &&& (topBit - 1)) 0 with
          | (m1, m2, e) =>
            match decodeChunkLoop c props bs1 width m1 m2 (curLength - 1) hw with
            | .error err => .error err
            | .ok rest => .ok (e :: rest)
  termination_by avail bs
  decreasing_by
  · have ha1 := bsRead_ok_avail bs (width : Int) v bs1 h1
    have ha2 := bsRead_ok_avail bs1 (props.fetchA : Int) t bs2 h2
    simp only [Int.toNat_natCast] at ha1 ha2
    omega
  · have ha1 := bsRead_ok_avail bs (width : Int) v bs1 h1
    simp only [Int.toNat_natCast] at ha1
    omega
  · have ha1 := bsRead_ok_avail bs (width : Int) v bs1 h1
    simp only [Int.toNat_natCast] at ha1
    omega
  · have ha1 := bsRead_ok_avail bs (width : Int) v bs1 h1
    simp only [Int.toNat_natCast] at ha1
    omega
  · have ha1 := bsRead_ok_avail bs (width : Int) v bs1 h1
    simp only [Int.toNat_natCast] at ha1
    omega
  · have ha1 := bsRead_ok_avail bs (width : Int) v bs1 h1
    simp only [Int.toNat_natCast] at ha1
    omega

theorem dcl_zero (c : ItSampleCodec) (props : ItSampleCodecParams) (bs : Bitstream)
    (width : Nat) (m1 m2 : Int) (hw : 1 ≤ width) :
    decodeChunkLoop c props bs width m1 m2 0 hw = .ok [] := by
  rw [decodeChunkLoop.eq_def, if_pos rfl]

theorem dcl_overWidth (c : ItSampleCodec) (props : ItSampleCodecParams) (bs : Bitstream)
    (width : Nat) (m1 m2 : Int) (cur : Nat) (hw : 1 ≤ width)
    (hc : ¬cur = 0) (hd : props.defWidth < width) :
    decodeChunkLoop c props bs width m1 m2 cur hw = .error .decodingError := by
  rw [decodeChunkLoop.eq_def, if_neg hc, if_pos hd]

theorem dcl_readErr (c : ItSampleCodec) (props : ItSampleCodecParams) (bs : Bitstream)
    (width : Nat) (m1 m2 : Int) (cur : Nat) (hw : 1 ≤ width)
    (e : ItErr) (bsx : Bitstream)
    (hc : ¬cur = 0) (hd : ¬props.defWidth < width)
    (h : bsRead bs (width : Int) = .error (e, bsx)) :
    decodeChunkLoop c props bs width m1 m2 cur hw = .error e := by
  rw [decodeChunkLoop.eq_def, if_neg hc, if_neg hd]
  split
  · rename_i e' snd' heq
    rw [h] at heq
    injection heq with heq
    injection heq with heq1 heq2
    subst heq1
    rfl
  · rename_i v' bs1' heq
    rw [h] at heq
    exact Except.noConfusion heq

theorem dcl_modeA_fetchErr (c : ItSampleCodec) (props : ItSampleCodecParams) (bs : Bitstream)
    (width : Nat) (m1 m2 : Int) (cur : Nat) (hw : 1 ≤ width)
    (bs1 : Bitstream) (e : ItErr) (bsx : Bitstream)
    (hc : ¬cur = 0) (hd : ¬props.defWidth < width)
    (h1 : bsRead bs (width : Int) = .ok (1 <<< (width - 1), bs1))
    (h6 : width ≤ 6)
    (h2 : bsRead bs1 (props.fetchA : Int) = .error (e, bsx)) :
    decodeChunkLoop c props bs width m1 m2 cur hw = .error e := by
  rw [decodeChunkLoop.eq_def, if_neg hc, if_neg hd]
  split
  · rename_i e' snd' heq
    rw [h1] at heq
    exact Except.noConfusion heq
  · rename_i v' bs1' heq
    rw [h1] at heq
    injection heq with heq
    injection heq with heqv heqbs
    subst heqv heqbs
    rw [if_pos h6, if_pos rfl]
    split
    · rename_i e' snd' heq2
      rw [h2] at heq2
      injection heq2 with heq2
      injection heq2 with heq2a heq2b
      subst heq2a
      rfl
    · rename_i t' bs2' heq2
      rw [h2] at heq2
      exact Except.noConfusion heq2

theorem dcl_modeA_escape (c : ItSampleCodec) (props : ItSampleCodecParams) (bs : Bitstream)
    (width : Nat) (m1 m2 : Int) (cur : Nat) (hw : 1 ≤ width)
    (bs1 : Bitstream) (t : Nat) (bs2 : Bitstream)
    (hc : ¬cur = 0) (hd : ¬props.defWidth < width)
    (h1 : bsRead bs (width : Int) = .ok (1 <<< (width - 1), bs1))
    (h6 : width ≤ 6)
    (h2 : bsRead bs1 (props.fetchA : Int) = .ok (t, bs2)) :
    decodeChunkLoop c props bs width m1 m2 cur hw =
      decodeChunkLoop c props bs2 (changeWidth width t) m1 m2 cur (changeWidth_pos width t) := by
  rw [decodeChunkLoop.eq_def, if_neg hc, if_neg hd]
  split
  · rename_i e' snd' heq
    rw [h1] at heq
    exact Except.noConfusion heq
  · rename_i v' bs1' heq
    rw [h1] at heq
    injection heq with heq
    injection heq with heqv heqbs
    subst heqv heqbs
    rw [if_pos h6, if_pos rfl]
    split
    · rename_i e' snd' heq2
      rw [h2] at heq2
      exact Except.noConfusion heq2
    · rename_i t' bs2' heq2
      rw [h2] at heq2
      injection heq2 with heq2
      injection heq2 with heq2a heq2b
      subst heq2a heq2b
      rfl

theorem dcl_modeA_write (c : ItSampleCodec) (props : ItSampleCodecParams) (bs : Bitstream)
    (width : Nat) (m1 m2 : Int) (cur : Nat) (hw : 1 ≤ width)
    (v : Nat) (bs1 : Bitstream) (w1 w2 ev : Int)
    (hc : ¬cur = 0) (hd : ¬props.defWidth < width)
    (h1 : bsRead bs (width : Int) = .ok (v, bs1))
    (h6 : width ≤ 6)
    (hv : ¬v = 1 <<< (width - 1))
    (hcw : codecWrite c m1 m2 v (1 <<< (width - 1)) = (w1, w2, ev)) :
    decodeChunkLoop c props bs width m1 m2 cur hw =
      match decodeChunkLoop c props bs1 width w1 w2 (cur - 1) hw with
      | .error err => .error err
      | .ok rest => .ok (ev :: rest) := by
  rw [decodeChunkLoop.eq_def, if_neg hc, if_neg hd]
  split
  · rename_i e' snd' heq
    rw [h1] at heq
    exact Except.noConfusion heq
  · rename_i v' bs1' heq
    rw [h1] at heq
    injection heq with heq
    injection heq with heqv heqbs
    subst heqv heqbs
    rw [if_pos h6, if_neg hv, hcw]

theorem dcl_modeB_escape (c : ItSampleCodec) (props : ItSampleCodecParams) (bs : Bitstream)
    (width : Nat) (m1 m2 : Int) (cur : Nat) (hw : 1 ≤ width)
    (v : Nat) (bs1 : Bitstream)
    (hc : ¬cur = 0) (hd : ¬props.defWidth < width)
    (h1 : bsRead bs (width : Int) = .ok (v, bs1))
    (h6 : ¬width ≤ 6) (hlt : width < props.defWidth)
    (hwin : ((1 <<< (width - 1) : Nat) : Int) + props.lowerB ≤ (v : Int) ∧
      (v : Int) ≤ ((1 <<< (width - 1) : Nat) : Int) + props.upperB) :
    decodeChunkLoop c props bs width m1 m2 cur hw =
      decodeChunkLoop c props bs1
        (changeWidth width ((v : Int) - (((1 <<< (width - 1) : Nat) : Int) + props.lowerB)).toNat)
        m1 m2 cur (changeWidth_pos width _) := by
  rw [decodeChunkLoop.eq_def, if_neg hc, if_neg hd]
  split
  · rename_i e' snd' heq
    rw [h1] at heq
    exact Except.noConfusion heq
  · rename_i v' bs1' heq
    rw [h1] at heq
    injection heq with heq
    injection heq with heqv heqbs
    subst heqv heqbs
    rw [if_neg h6, if_pos hlt, if_pos hwin]

theorem dcl_modeB_write (c : ItSampleCodec) (props : ItSampleCodecParams) (bs : Bitstream)
    (width : Nat) (m1 m2 : Int) (cur : Nat) (hw : 1 ≤ width)
    (v : Nat) (bs1 : Bitstream) (w1 w2 ev : Int)
    (hc : ¬cur = 0) (hd : ¬props.defWidth < width)
    (h1 : bsRead bs (width : Int) = .ok (v, bs1))
    (h6 : ¬width ≤ 6) (hlt : width < props.defWidth)
    (hwin : ¬(((1 <<< (width - 1) : Nat) : Int) + props.lowerB ≤ (v : Int) ∧
      (v : Int) ≤ ((1 <<< (width - 1) : Nat) : Int) + props.upperB))
    (hcw : codecWrite c m1 m2 v (1 <<< (width - 1)) = (w1, w2, ev)) :
    decodeChunkLoop c props bs width m1 m2 cur hw =
      match decodeChunkLoop c props bs1 width w1 w2 (cur - 1) hw with
      | .error err => .error err
      | .ok rest => .ok (ev :: rest) := by
  rw [decodeChunkLoop.eq_def, if_neg hc, if_neg hd]
  split
  · rename_i e' snd' heq
    rw [h1] at heq
    exact Except.noConfusion heq
  · rename_i v' bs1' heq
    rw [h1] at heq
    injection heq with heq
    injection heq with heqv heqbs
    subst heqv heqbs
    rw [if_neg h6, if_pos hlt, if_neg hwin, hcw]

theorem dcl_modeC_escape (c : ItSampleCodec) (props : ItSampleCodecParams) (bs : Bitstream)
    (width : Nat) (m1 m2 : Int) (cur : Nat) (hw : 1 ≤ width)
    (v : Nat) (bs1 : Bitstream)
    (hc : ¬cur = 0) (hd : ¬props.defWidth < width)
    (h1 : bsRead bs (width : Int) = .ok (v, bs1))
    (h6 : ¬width ≤ 6) (hlt : ¬width < props.defWidth)
    (htop : v &&& 1 <<< (width - 1) ≠ 0) :
    decodeChunkLoop c props bs width m1 m2 cur hw =
      decodeChunkLoop c props bs1 ((v &&& (1 <<< (width - 1) - 1)) + 1) m1 m2 cur
        (by omega) := by
  rw [decodeChunkLoop.eq_def, if_neg hc, if_neg hd]
  split
  · rename_i e' snd' heq
    rw [h1] at heq
    exact Except.noConfusion heq
  · rename_i v' bs1' heq
    rw [h1] at heq
    injection heq with heq
    injection heq with heqv heqbs
    subst heqv heqbs
    rw [if_neg h6, if_neg hlt, if_pos htop]

theorem dcl_modeC_write (c : ItSampleCodec) (props : ItSampleCodecParams) (bs : Bitstream)
    (width : Nat) (m1 m2 : Int) (cur : Nat) (hw : 1 ≤ width)
    (v : Nat) (bs1 : Bitstream) (w1 w2 ev : Int)
    (hc : ¬cur = 0) (hd : ¬props.defWidth < width)
    (h1 : bsRead bs (width : Int) = .ok (v, bs1))
    (h6 : ¬width ≤ 6) (hlt : ¬width < props.defWidth)
    (htop : ¬v &&& 1 <<< (width - 1) ≠ 0)
    (hcw : codecWrite c m1 m2 (v &&& (1 <<< (width - 1) - 1)) 0 = (w1, w2, ev)) :
    decodeChunkLoop c props bs width m1 m2 cur hw =
      match decodeChunkLoop c props bs1 width w1 w2 (cur - 1) hw with
      | .error err => .error err
      | .ok rest => .ok (ev :: rest) := by
  rw [decodeChunkLoop.eq_def, if_neg hc, if_neg hd]
  split
  · rename_i e' snd' heq
    rw [h1] at heq
    exact Except.noConfusion heq
  · rename_i v' bs1' heq
    rw [h1] at heq
    injection heq with heq
    injection heq with heqv heqbs
    subst heqv heqbs
    rw [if_neg h6, if_neg hlt, if_neg htop, hcw]

theorem decodeChunkLoop_length (c : ItSampleCodec) (props : ItSampleCodecParams)
    (bs : Bitstream) (width : Nat) (mem1 mem2 : Int) (curLength : Nat) (hw : 1 ≤ width) :
    ∀ l, decodeChunkLoop c props bs width mem1 mem2 curLength hw = .ok l →
      l.length = curLength := by
  induction bs, width, mem1, mem2, curLength, hw using decodeChunkLoop.induct c props with
  | case1 bs width m1 m2 hw =>
    intro l hok
    rw [dcl_zero] at hok
    injection hok with hok
    subst hok
    rfl
  | case2 bs width m1 m2 cur hw hc hd =>
    intro l hok
    rw [dcl_overWidth c props bs width m1 m2 cur hw hc hd] at hok
    exact Except.noConfusion hok
  | case3 bs width m1 m2 cur hw hc hd e snd h1 =>
    intro l hok
    rw [dcl_readErr c props bs width m1 m2 cur hw e snd hc hd h1] at hok
    exact Except.noConfusion hok
  | case4 bs width m1 m2 cur hw hc hd bs2 tb h6 e snd h2 h1 =>
    intro l hok
    rw [dcl_modeA_fetchErr c props bs width m1 m2 cur hw bs2 e snd hc hd h1 h6 h2] at hok
    exact Except.noConfusion hok
  | case5 bs width m1 m2 cur hw hc hd bs2 tb h6 t bs2b h2 h1 ih =>
    intro l hok
    rw [dcl_modeA_escape c props bs width m1 m2 cur hw bs2 t bs2b hc hd h1 h6 h2] at hok
    exact ih l hok
  | case6 bs width m1 m2 cur hw hc hd t bs2 h1 tb h6 hne w1 w2 ev hcw err hrec ih =>
    intro l hok
    rw [dcl_modeA_write c props bs width m1 m2 cur hw t bs2 w1 w2 ev hc hd h1 h6 hne hcw,
      hrec] at hok
    exact Except.noConfusion hok
  | case7 bs width m1 m2 cur hw hc hd t bs2 h1 tb h6 hne w1 w2 ev hcw rest hrec ih =>
    intro l hok
    rw [dcl_modeA_write c props bs width m1 m2 cur hw t bs2 w1 w2 ev hc hd h1 h6 hne hcw,
      hrec] at hok
    injection hok with hok
    subst hok
    have hlen := ih rest hrec
    simp only [List.length_cons]
    omega
  | case8 bs width m1 m2 cur hw hc hd t bs2 h1 tb h6 hlt hwin ih =>
    intro l hok
    rw [dcl_modeB_escape c props bs width m1 m2 cur hw t bs2 hc hd h1 h6 hlt hwin] at hok
    exact ih l hok
  | case9 bs width m1 m2 cur hw hc hd t bs2 h1 tb h6 hlt hwin w1 w2 ev hcw err hrec ih =>
    intro l hok
    rw [dcl_modeB_write c props bs width m1 m2 cur hw t bs2 w1 w2 ev hc hd h1 h6 hlt hwin hcw,
      hrec] at hok
    exact Except.noConfusion hok
  | case10 bs width m1 m2 cur hw hc hd t bs2 h1 tb h6 hlt hwin w1 w2 ev hcw rest hrec ih =>
    intro l hok
    rw [dcl_modeB_write c props bs width m1 m2 cur hw t bs2 w1 w2 ev hc hd h1 h6 hlt hwin hcw,
      hrec] at hok
    injection hok with hok
    subst hok
    have hlen := ih rest hrec
    simp only [List.length_cons]
    omega
  | case11 bs width m1 m2 cur hw hc hd t bs2 h1 tb h6 hlt htop ih =>
    intro l hok
    rw [dcl_modeC_escape c props bs width m1 m2 cur hw t bs2 hc hd h1 h6 hlt htop] at hok
    exact ih l hok
  | case12 bs width m1 m2 cur hw hc hd t bs2 h1 tb h6 hlt htop w1 w2 ev hcw err hrec ih =>
    intro l hok
    rw [dcl_modeC_write c props bs width m1 m2 cur hw t bs2 w1 w2 ev hc hd h1 h6 hlt htop hcw,
      hrec] at hok
    exact Except.noConfusion hok
  | case13 bs width m1 m2 cur hw hc hd t bs2 h1 tb h6 hlt htop w1 w2 ev hcw rest hrec ih =>
    intro l hok
    rw [dcl_modeC_write c props bs width m1 m2 cur hw t bs2 w1 w2 ev hc hd h1 h6 hlt htop hcw,
      hrec] at hok
    injection hok with hok
    subst hok
    have hlen := ih rest hrec
    simp only [List.length_cons]
    omega

/-- The `getChunk` helper: read a 2-byte little-endian length, then that
many payload bytes, wrapped into a fresh bit stream.  `binary.Read`
failures (source exhausted) are modelled as `readError`.  Returns the
unconsumed remainder of the reader alongside. -/
def getChunk (input : List Nat) : Except ItErr (Bitstream × List Nat) :=
  match input with
  | b0 :: b1 :: rest =>
    let byteLength := b0 + 256 * b1
    if rest.length < byteLength then .error .readError
    else .ok (createBitstream (rest.take byteLength), rest.drop byteLength)
  | _ => .error .readError

/-- The 32 KB block ceiling of `decodeChunk`: `32*1024`, halved for 16-bit
samples. -/
def maxBlockLength (c : ItSampleCodec) : Nat :=
  if c.Is16 then 32 * 1024 / 2 else 32 * 1024

/-- Parameter selection of `decodeChunk`: `ItSampleCodecParams8` unless
`Is16`. -/
def codecProps (c : ItSampleCodec) : ItSampleCodecParams :=
  if c.Is16 then ItSampleCodecParams16 else ItSampleCodecParams8

theorem codecProps_defWidth_pos (c : ItSampleCodec) : 1 ≤ (codecProps c).defWidth := by
  unfold codecProps
  rcases hc : c.Is16 <;>
    simp [hc, ItSampleCodecParams16, ItSampleCodecParams8]

theorem maxBlockLength_pos (c : ItSampleCodec) : 1 ≤ maxBlockLength c := by
  unfold maxBlockLength
  rcases hc : c.Is16 <;> simp [hc]

/-- `ItSampleCodec.decodeChunk`: pull one length-prefixed chunk from the
reader and run the block decoder over it for
`min remainingLength maxBlockLength` samples. -/
def decodeChunk (c : ItSampleCodec) (input : List Nat) (remainingLength : Nat) :
    Except ItErr (List Int × List Nat) :=
  match getChunk input with
  | .error e => .error e
  | .ok (dataSource, rest) =>
    let curLength := min remainingLength (maxBlockLength c)
    match decodeChunkLoop c (codecProps c) dataSource (codecProps c).defWidth 0 0 curLength
        (codecProps_defWidth_pos c) with
    | .error e => .error e
    | .ok decoded => .ok (decoded, rest)

theorem decodeChunk_ok_length (c : ItSampleCodec) (input : List Nat) (remainingLength : Nat)
    (l : List Int) (rest : List Nat)
    (h : decodeChunk c input remainingLength = .ok (l, rest)) :
    l.length = min remainingLength (maxBlockLength c) := by
  unfold decodeChunk at h
  rcases hg : getChunk input with e | ⟨dataSource, rest'⟩
  · rw [hg] at h
    exact Except.noConfusion h
  · rw [hg] at h
    simp only at h
    rcases hl : decodeChunkLoop c (codecProps c) dataSource (codecProps c).defWidth 0 0
        (min remainingLength (maxBlockLength c)) (codecProps_defWidth_pos c) with e | decoded
    · rw [hl] at h
      exact Except.noConfusion h
    · rw [hl] at h
      injection h with h
      injection h with h1 h2
      subst h1
      exact decodeChunkLoop_length c (codecProps c) dataSource (codecProps c).defWidth 0 0
        (min remainingLength (maxBlockLength c)) (codecProps_defWidth_pos c) decoded hl

/-- `ItSampleCodec.Decode`: pull chunks until `sampleLength` samples have
been produced (`remainingLength` counts down by each chunk's yield), or
fail with the first error. -/
def itDecode (c : ItSampleCodec) (input : List Nat) (sampleLength : Nat) :
    Except ItErr (List Int) :=
  if sampleLength = 0 then .ok []
  else
    match hc : decodeChunk c input sampleLength with
    | .error e => .error e
    | .ok (chunk, rest) =>
      match itDecode c rest (sampleLength - chunk.length) with
      | .error e => .error e
      | .ok more => .ok (chunk ++ more)
  termination_by sampleLength
  decreasing_by
  · rename_i h0
    have hl := decodeChunk_ok_length c input sampleLength chunk rest hc
    have hmb := maxBlockLength_pos c
    omega

theorem itDecode_zero (c : ItSampleCodec) (input : List Nat) :
    itDecode c input 0 = .ok [] := by
  rw [itDecode.eq_def, if_pos rfl]

theorem itDecode_chunkErr (c : ItSampleCodec) (input : List Nat) (n : Nat) (e : ItErr)
    (h0 : ¬n = 0) (h : decodeChunk c input n = .error e) :
    itDecode c input n = .error e := by
  rw [itDecode.eq_def, if_neg h0]
  split
  · rename_i e' heq
    rw [h] at heq
    injection heq with heq
    subst heq
    rfl
  · rename_i chunk rest heq
    rw [h] at heq
    exact Except.noConfusion heq

theorem itDecode_step (c : ItSampleCodec) (input : List Nat) (n : Nat)
    (chunk : List Int) (rest : List Nat)
    (h0 : ¬n = 0) (h : decodeChunk c input n = .ok (chunk, rest)) :
    itDecode c input n =
      match itDecode c rest (n - chunk.length) with
      | .error e => .error e
      | .ok more => .ok (chunk ++ more) := by
  rw [itDecode.eq_def, if_neg h0]
  split
  · rename_i e' heq
    rw [h] at heq
    exact Except.noConfusion heq
  · rename_i chunk' rest' heq
    rw [h] at heq
    injection heq with heq
    injection heq with h1 h2
    subst h1 h2
    rfl

theorem itDecode_ok_length (c : ItSampleCodec) (input : List Nat) (n : Nat) :
    ∀ l, itDecode c input n = .ok l → l.length = n := by
  induction input, n using itDecode.induct c with
  | case1 input =>
    intro l hok
    rw [itDecode_zero] at hok
    injection hok with hok
    subst hok
    rfl
  | case2 input n h0 e hc =>
    intro l hok
    rw [itDecode_chunkErr c input n e h0 hc] at hok
    exact Except.noConfusion hok
  | case3 input n h0 chunk rest hc e hrec ih =>
    intro l hok
    rw [itDecode_step c input n chunk rest h0 hc, hrec] at hok
    exact Except.noConfusion hok
  | case4 input n h0 chunk rest hc more hrec ih =>
    intro l hok
    rw [itDecode_step c input n chunk rest h0 hc, hrec] at hok
    injection hok with hok
    subst hok
    have hlen := ih more hrec
    have hcl := decodeChunk_ok_length c input n chunk rest hc
    have hmb := maxBlockLength_pos c
    simp only [List.length_append]
    omega

theorem toInt16_range (x : Int) : -32768 ≤ toInt16 x ∧ toInt16 x < 32768 := by
  unfold toInt16
  have h1 := Int.emod_nonneg (x + 32768) (show (65536:Int) ≠ 0 by norm_num)
  have h2 := Int.emod_lt_of_pos (x + 32768) (show (0:Int) < 65536 by norm_num)
  omega

theorem codecWrite_ev_range (c : ItSampleCodec) (m1 m2 : Int) (v topBit : Nat)
    (w1 w2 ev : Int) (h : codecWrite c m1 m2 v topBit = (w1, w2, ev)) :
    -32768 ≤ ev ∧ ev < 32768 := by
  unfold codecWrite at h
  injection h with h1 h
  injection h with h2 h3
  subst h3
  exact toInt16_range _

theorem decodeChunkLoop_range (c : ItSampleCodec) (props : ItSampleCodecParams)
    (bs : Bitstream) (width : Nat) (mem1 mem2 : Int) (curLength : Nat) (hw : 1 ≤ width) :
    ∀ l, decodeChunkLoop c props bs width mem1 mem2 curLength hw = .ok l →
      ∀ x ∈ l, -32768 ≤ x ∧ x < 32768 := by
  induction bs, width, mem1, mem2, curLength, hw using decodeChunkLoop.induct c props with
  | case1 bs width m1 m2 hw =>
    intro l hok
    rw [dcl_zero] at hok
    injection hok with hok
    subst hok
    intro x hx
    exact absurd hx (by simp)
  | case2 bs width m1 m2 cur hw hc hd =>
    intro l hok
    rw [dcl_overWidth c props bs width m1 m2 cur hw hc hd] at hok
    exact Except.noConfusion hok
  | case3 bs width m1 m2 cur hw hc hd e snd h1 =>
    intro l hok
    rw [dcl_readErr c props bs width m1 m2 cur hw e snd hc hd h1] at hok
    exact Except.noConfusion hok
  | case4 bs width m1 m2 cur hw hc hd bs2 tb h6 e snd h2 h1 =>
    intro l hok
    rw [dcl_modeA_fetchErr c props bs width m1 m2 cur hw bs2 e snd hc hd h1 h6 h2] at hok
    exact Except.noConfusion hok
  | case5 bs width m1 m2 cur hw hc hd bs2 tb h6 t bs2b h2 h1 ih =>
    intro l hok
    rw [dcl_modeA_escape c props bs width m1 m2 cur hw bs2 t bs2b hc hd h1 h6 h2] at hok
    exact ih l hok
  | case6 bs width m1 m2 cur hw hc hd t bs2 h1 tb h6 hne w1 w2 ev hcw err hrec ih =>
    intro l hok
    rw [dcl_modeA_write c props bs width m1 m2 cur hw t bs2 w1 w2 ev hc hd h1 h6 hne hcw,
      hrec] at hok
    exact Except.noConfusion hok
  | case7 bs width m1 m2 cur hw hc hd t bs2 h1 tb h6 hne w1 w2 ev hcw rest hrec ih =>
    intro l hok
    rw [dcl_modeA_write c props bs width m1 m2 cur hw t bs2 w1 w2 ev hc hd h1 h6 hne hcw,
      hrec] at hok
    injection hok with hok
    subst hok
    intro x hx
    rcases List.mem_cons.mp hx with hx | hx
    · subst hx
      exact codecWrite_ev_range c m1 m2 t _ w1 w2 x hcw
    · exact ih rest hrec x hx
  | case8 bs width m1 m2 cur hw hc hd t bs2 h1 tb h6 hlt hwin ih =>
    intro l hok
    rw [dcl_modeB_escape c props bs width m1 m2 cur hw t bs2 hc hd h1 h6 hlt hwin] at hok
    exact ih l hok
  | case9 bs width m1 m2 cur hw hc hd t bs2 h1 tb h6 hlt hwin w1 w2 ev hcw err hrec ih =>
    intro l hok
    rw [dcl_modeB_write c props bs width m1 m2 cur hw t bs2 w1 w2 ev hc hd h1 h6 hlt hwin hcw,
      hrec] at hok
    exact Except.noConfusion hok
  | case10 bs width m1 m2 cur hw hc hd t bs2 h1 tb h6 hlt hwin w1 w2 ev hcw rest hrec ih =>
    intro l hok
    rw [dcl_modeB_write c props bs width m1 m2 cur hw t bs2 w1 w2 ev hc hd h1 h6 hlt hwin hcw,
      hrec] at hok
    injection hok with hok
    subst hok
    intro x hx
    rcases List.mem_cons.mp hx with hx | hx
    · subst hx
      exact codecWrite_ev_range c m1 m2 t _ w1 w2 x hcw
    · exact ih rest hrec x hx
  | case11 bs width m1 m2 cur hw hc hd t bs2 h1 tb h6 hlt htop ih =>
    intro l hok
    rw [dcl_modeC_escape c props bs width m1 m2 cur hw t bs2 hc hd h1 h6 hlt htop] at hok
    exact ih l hok
  | case12 bs width m1 m2 cur hw hc hd t bs2 h1 tb h6 hlt htop w1 w2 ev hcw err hrec ih =>
    intro l hok
    rw [dcl_modeC_write c props bs width m1 m2 cur hw t bs2 w1 w2 ev hc hd h1 h6 hlt htop hcw,
      hrec] at hok
    exact Except.noConfusion hok
  | case13 bs width m1 m2 cur hw hc hd t bs2 h1 tb h6 hlt htop w1 w2 ev hcw rest hrec ih =>
    intro l hok
    rw [dcl_modeC_write c props bs width m1 m2 cur hw t bs2 w1 w2 ev hc hd h1 h6 hlt htop hcw,
      hrec] at hok
    injection hok with hok
    subst hok
    intro x hx
    rcases List.mem_cons.mp hx with hx | hx
    · subst hx
      exact codecWrite_ev_range c m1 m2 _ _ w1 w2 x hcw
    · exact ih rest hrec x hx

theorem decodeChunk_ok_range (c : ItSampleCodec) (input : List Nat) (n : Nat)
    (l : List Int) (rest : List Nat) (h : decodeChunk c input n = .ok (l, rest)) :
    ∀ x ∈ l, -32768 ≤ x ∧ x < 32768 := by
  unfold decodeChunk at h
  rcases hg : getChunk input with e | ⟨dataSource, rest'⟩
  · rw [hg] at h
    exact Except.noConfusion h
  · rw [hg] at h
    simp only at h
    rcases hl : decodeChunkLoop c (codecProps c) dataSource (codecProps c).defWidth 0 0
        (min n (maxBlockLength c)) (codecProps_defWidth_pos c) with e | decoded
    · rw [hl] at h
      exact Except.noConfusion h
    · rw [hl] at h
      injection h with h
      injection h with h1 h2
      subst h1
      exact decodeChunkLoop_range c (codecProps c) dataSource (codecProps c).defWidth 0 0
        (min n (maxBlockLength c)) (codecProps_defWidth_pos c) decoded hl

theorem itDecode_ok_range (c : ItSampleCodec) (input : List Nat) (n : Nat) :
    ∀ l, itDecode c input n = .ok l → ∀ x ∈ l, -32768 ≤ x ∧ x < 32768 := by
  induction input, n using itDecode.induct c with
  | case1 input =>
    intro l hok
    rw [itDecode_zero] at hok
    injection hok with hok
    subst hok
    intro x hx
    exact absurd hx (by simp)
  | case2 input n h0 e hc =>
    intro l hok
    rw [itDecode_chunkErr c input n e h0 hc] at hok
    exact Except.noConfusion hok
  | case3 input n h0 chunk rest hc e hrec ih =>
    intro l hok
    rw [itDecode_step c input n chunk rest h0 hc, hrec] at hok
    exact Except.noConfusion hok
  | case4 input n h0 chunk rest hc more hrec ih =>
    intro l hok
    rw [itDecode_step c input n chunk rest h0 hc, hrec] at hok
    injection hok with hok
    subst hok
    intro x hx
    rcases List.mem_append.mp hx with hx | hx
    · exact decodeChunk_ok_range c input n chunk rest hc x hx
    · exact ih more hrec x hx

theorem hdw8 : (1:Nat) ≤ ItSampleCodecParams8.defWidth := by decide

theorem evalLoop0 : decodeChunkLoop ⟨false, false⟩ ItSampleCodecParams8
    (createBitstream [0, 0]) ItSampleCodecParams8.defWidth 0 0 1 hdw8 = .ok [0] := by
  rw [dcl_modeC_write ⟨false, false⟩ ItSampleCodecParams8 (createBitstream [0, 0])
    ItSampleCodecParams8.defWidth 0 0 1 hdw8
    0 ⟨[], 0, 7⟩ 0 0 0 (by decide) (by decide) (by rfl) (by decide) (by decide) (by decide)
    (by rfl)]
  rw [dcl_zero]

theorem evalDecodeChunk0 : decodeChunk ⟨false, false⟩ [2, 0, 0, 0] 1 = .ok ([0], []) := by
  simp only [decodeChunk, getChunk, codecProps, maxBlockLength]
  norm_num
  rw [evalLoop0]

theorem evalItDecode0 : itDecode ⟨false, false⟩ [2, 0, 0, 0] 1 = .ok [0] := by
  rw [itDecode_step ⟨false, false⟩ [2, 0, 0, 0] 1 [0] [] (by norm_num) evalDecodeChunk0]
  have hl : (1 : Nat) - ([0] : List Int).length = 0 := rfl
  rw [hl, itDecode_zero]
  rfl

theorem evalLoopTrunc : decodeChunkLoop ⟨false, false⟩ ItSampleCodecParams8
    (createBitstream [200, 144, 1]) ItSampleCodecParams8.defWidth 0 0 2 hdw8 =
      .ok [200, 400] := by
  rw [dcl_modeC_write ⟨false, false⟩ ItSampleCodecParams8 (createBitstream [200, 144, 1])
    ItSampleCodecParams8.defWidth 0 0 2 hdw8
    200 ⟨[1], 72, 7⟩ 200 200 200 (by decide) (by decide) (by rfl) (by decide) (by decide)
    (by decide) (by rfl)]
  rw [dcl_modeC_write ⟨false, false⟩ ItSampleCodecParams8 ⟨[1], 72, 7⟩
    ItSampleCodecParams8.defWidth 200 200 1 hdw8
    200 ⟨[], 0, 6⟩ 400 600 400 (by decide) (by decide) (by rfl) (by decide) (by decide)
    (by decide) (by rfl)]
  rw [dcl_zero]

theorem evalDecodeChunkTrunc : decodeChunk ⟨false, false⟩ [3, 0, 200, 144, 1] 2 =
    .ok ([200, 400], []) := by
  simp only [decodeChunk, getChunk, codecProps, maxBlockLength]
  norm_num
  rw [evalLoopTrunc]

theorem evalItDecodeTrunc : itDecode ⟨false, false⟩ [3, 0, 200, 144, 1] 2 =
    .ok [200, 400] := by
  rw [itDecode_step ⟨false, false⟩ [3, 0, 200, 144, 1] 2 [200, 400] [] (by norm_num)
    evalDecodeChunkTrunc]
  have hl : (2 : Nat) - ([200, 400] : List Int).length = 0 := rfl
  rw [hl, itDecode_zero]
  rfl

theorem evalLoopEos : decodeChunkLoop ⟨false, false⟩ ItSampleCodecParams8
    (createBitstream [0, 0]) ItSampleCodecParams8.defWidth 0 0 2 hdw8 =
      .error .endOfStream := by
  rw [dcl_modeC_write ⟨false, false⟩ ItSampleCodecParams8 (createBitstream [0, 0])
    ItSampleCodecParams8.defWidth 0 0 2 hdw8
    0 ⟨[], 0, 7⟩ 0 0 0 (by decide) (by decide) (by rfl) (by decide) (by decide) (by decide)
    (by rfl)]
  rw [dcl_readErr ⟨false, false⟩ ItSampleCodecParams8 ⟨[], 0, 7⟩
    ItSampleCodecParams8.defWidth 0 0 1 hdw8 .endOfStream ⟨[], 0, 7⟩ (by decide) (by decide)
    (by rfl)]

theorem evalDecodeChunkEos : decodeChunk ⟨false, false⟩ [2, 0, 0, 0, 2, 0, 0, 0] 2 =
    .error .endOfStream := by
  simp only [decodeChunk, getChunk, codecProps, maxBlockLength]
  norm_num
  rw [evalLoopEos]

theorem evalItDecodeEos : itDecode ⟨false, false⟩ [2, 0, 0, 0, 2, 0, 0, 0] 2 =
    .error .endOfStream :=
  itDecode_chunkErr ⟨false, false⟩ [2, 0, 0, 0, 2, 0, 0, 0] 2 .endOfStream (by norm_num)
    evalDecodeChunkEos

/-- Claim C2: for every input and every sampleLength > 0,
`ItSampleCodec.Decode` either fails with an error (returning no data) or
returns a slice of exactly sampleLength decoded values. -/
theorem c2_decode_fails_or_exact_length (c : ItSampleCodec) (input : List Nat)
    (sampleLength : Nat) (h1 : 1 ≤ sampleLength) :
    (∃ e, itDecode c input sampleLength = .error e) ∨
    (∃ l, itDecode c input sampleLength = .ok l ∧ l.length = sampleLength) := by
  rcases h : itDecode c input sampleLength with e | l
  · exact .inl ⟨e, rfl⟩
  · exact .inr ⟨l, rfl, itDecode_ok_length c input sampleLength l h⟩

/-- Witness for C2 at a concrete input: a single two-byte chunk decoding
one sample. -/
theorem c2_witness :
    (∃ e, itDecode ⟨false, false⟩ [2, 0, 0, 0] 1 = .error e) ∨
    (∃ l, itDecode ⟨false, false⟩ [2, 0, 0, 0] 1 = .ok l ∧ l.length = 1) :=
  c2_decode_fails_or_exact_length ⟨false, false⟩ [2, 0, 0, 0] 1 (by norm_num)

/-- Counterexample to C3 as stated: an 8-bit stream of two chunks; the
first chunk's two-byte payload is exhausted after one of the two requested
samples, a well-formed second chunk follows, yet `Decode` fails with
`EndOfStream` instead of continuing into the next chunk. -/
theorem c3_counterexample : itDecode ⟨false, false⟩ [2, 0, 0, 0, 2, 0, 0, 0] 2 =
    .error .endOfStream :=
  evalItDecodeEos

/-- Claim C3 (amended): a chunk never yields fewer samples than
`min remainingLength maxBlockLength` without the whole decode failing:
whenever `decodeChunk` succeeds it returns exactly that many samples, so a
chunk whose bit-packed payload is exhausted early is an error (propagated
by `Decode`) even when more chunks follow; subsequent chunks serve only the
samples beyond each 32 KB block. -/
theorem c3_chunk_exact_or_fail (c : ItSampleCodec) (input : List Nat) (n : Nat)
    (l : List Int) (rest : List Nat) (h : decodeChunk c input n = .ok (l, rest)) :
    l.length = min n (maxBlockLength c) :=
  decodeChunk_ok_length c input n l rest h

/-- Witness for the amended C3 at a concrete chunk. -/
theorem c3_witness : ([0] : List Int).length = min 1 (maxBlockLength ⟨false, false⟩) :=
  c3_chunk_exact_or_fail ⟨false, false⟩ [2, 0, 0, 0] 1 [0] [] evalDecodeChunk0

/-- Counterexample to C4 as stated: decoding an 8-bit sample
(`Is16 = false`) whose deltas accumulate to 400, `Decode` emits 400 — the
accumulator truncated to int16 (mod 2^16) — not a value reduced modulo
2^8 as the claim asserts for 8-bit samples. -/
theorem c4_counterexample :
    itDecode ⟨false, false⟩ [3, 0, 200, 144, 1] 2 = .ok [200, 400] ∧
    ¬((400 : Int) < 256) :=
  ⟨evalItDecodeTrunc, by norm_num⟩

/-- Claim C4 (amended): every element emitted by the sample decoder equals
the running accumulator (`mem2` in It215 mode, else `mem1`) truncated to
int16 — modulo 2^16 — on every emission, for 16-bit AND 8-bit samples
alike; hence all output elements lie in `[-32768, 32767]`, and 8-bit
narrowing is left to the caller. -/
theorem c4_emission_truncated_int16 (c : ItSampleCodec) (input : List Nat) (n : Nat)
    (l : List Int) (h : itDecode c input n = .ok l) :
    ∀ x ∈ l, -32768 ≤ x ∧ x < 32768 :=
  itDecode_ok_range c input n l h

/-- Witness for the amended C4 at a concrete decode. -/
theorem c4_witness : -32768 ≤ (0 : Int) ∧ (0 : Int) < 32768 :=
  c4_emission_truncated_int16 ⟨false, false⟩ [2, 0, 0, 0] 1 [0] evalItDecode0 0 (by simp)

/-! ### Pattern decoder (`ItPattern.ToCommon` in src/itmod/itmod-mapping.go, and the
`loadPattern` unpacking loop of the older loader revision) -/

def PmaskNote : Nat := 1
def PmaskIns : Nat := 2
def PmaskVol : Nat := 4
def PmaskEffect : Nat := 8
def PmaskLastNote : Nat := 16
def PmaskLastIns : Nat := 32
def PmaskLastVol : Nat := 64
def PmaskLastEffect : Nat := 128

/-- Go `uint8` subtraction `a - b` (wraps modulo 256; both operands are
bytes). -/
def sub8 (a b : Nat) : Nat := (a + 256 - b) % 256

/-- `translateNote`: raw note byte to the normalized note code.  The final
`else 0` branch mirrors the Go source's unreachable fourth branch. -/
def translateNote (note : Nat) : Nat :=
  if note ≤ 120 then note + 1
  else if note = 254 ∨ note = 255 then note
  else if 120 ≤ note then 253
  else 0

/-- `translatePatternVolume`: raw volume-column byte to
`(command, param)`. -/
def translatePatternVolume (vol : Nat) : Nat × Nat :=
  if vol ≤ 64 then (1, vol)
  else if vol ≤ 74 then (2, sub8 vol 65)
  else if vol ≤ 84 then (3, sub8 vol 75)
  else if vol ≤ 94 then (4, sub8 vol 85)
  else if vol ≤ 104 then (5, sub8 vol 95)
  else if vol ≤ 114 then (6, sub8 vol 105)
  else if vol ≤ 124 then (7, sub8 vol 125)
  else if vol ≤ 127 then (0, 0)
  else if vol ≤ 128 then (8, sub8 vol 128)
  else if vol ≤ 202 then (9, sub8 vol 129)
  else if vol ≤ 212 then (10, sub8 vol 203)
  else (0, 0)

/-- `common.PatternEntry` (all fields are byte-valued here; the Go struct
widens `Instrument` to int16 but stores the raw byte). -/
structure PatternEntry where
  Channel : Nat
  Note : Nat
  Instrument : Nat
  VolumeCommand : Nat
  VolumeParam : Nat
  Effect : Nat
  EffectParam : Nat
  deriving DecidableEq, Repr

/-- Combined pattern-decoder state: the remaining packed bytes (Go keeps
`data`/`dataRead`; we keep the unread suffix), the `failure` flag of
`loadPattern` (set when a byte is requested past the end — `ToCommon`
computes the same byte values but ignores the flag), the six per-channel
"last value" arrays, and the running `channels` maximum of `ToCommon`
(absent from `loadPattern`, which ignores it). -/
structure PatSt where
  data : List Nat
  fail : Bool
  lastMask : Nat → Nat
  lastNote : Nat → Nat
  lastIns : Nat → Nat
  lastVol : Nat → Nat
  lastEffect : Nat → Nat
  lastEffectParam : Nat → Nat
  channels : Nat

/-- Point update of a per-channel array. -/
def upd (f : Nat → Nat) (i v : Nat) : Nat → Nat := fun j => if j = i then v else f j

/-- The `nextByte` closure: returns 0 (and raises the failure flag) once
the data is exhausted, else consumes one byte. -/
def nextByteP (s : PatSt) : Nat × PatSt :=
  match s.data with
  | [] => (0, { s with fail := true })
  | b :: rest => (b, { s with data := rest })

/-- Note field of one entry (lines `if mask&PmaskNote != 0` /
`if mask&(PmaskNote|PmaskLastNote) != 0`). -/
def procNoteField (s : PatSt) (ch mask : Nat) : PatSt × Nat :=
  let s1 := if mask &&& PmaskNote ≠ 0 then
      let r := nextByteP s
      { r.2 with lastNote := upd r.2.lastNote ch r.1 }
    else s
  if mask &&& (PmaskNote ||| PmaskLastNote) ≠ 0 then (s1, translateNote (s1.lastNote ch))
  else (s1, 0)

/-- Instrument field of one entry (stored as-is, no translation). -/
def procInsField (s : PatSt) (ch mask : Nat) : PatSt × Nat :=
  let s1 := if mask &&& PmaskIns ≠ 0 then
      let r := nextByteP s
      { r.2 with lastIns := upd r.2.lastIns ch r.1 }
    else s
  if mask &&& (PmaskIns ||| PmaskLastIns) ≠ 0 then (s1, s1.lastIns ch)
  else (s1, 0)

/-- Volume field of one entry: read the raw byte when the present bit
(0x04) is set, then emit `translatePatternVolume` of the stored byte when
either the present bit or the repeat-last bit (0x40) is set. -/
def procVolField (s : PatSt) (ch mask : Nat) : PatSt × Nat × Nat :=
  let s1 := if mask &&& PmaskVol ≠ 0 then
      let r := nextByteP s
      { r.2 with lastVol := upd r.2.lastVol ch r.1 }
    else s
  if mask &&& (PmaskVol ||| PmaskLastVol) ≠ 0 then
    (s1, translatePatternVolume (s1.lastVol ch))
  else (s1, 0, 0)

/-- Effect field of one entry: reads effect byte then parameter byte. -/
def procEffectField (s : PatSt) (ch mask : Nat) : PatSt × Nat × Nat :=
  let s1 := if mask &&& PmaskEffect ≠ 0 then
      let r1 := nextByteP s
      let sa := { r1.2 with lastEffect := upd r1.2.lastEffect ch r1.1 }
      let r2 := nextByteP sa
      { r2.2 with lastEffectParam := upd r2.2.lastEffectParam ch r2.1 }
    else s
  if mask &&& (PmaskEffect ||| PmaskLastEffect) ≠ 0 then
    (s1, s1.lastEffect ch, s1.lastEffectParam ch)
  else (s1, 0, 0)

/-- Body of the inner channel loop for one nonzero channel-select byte:
channel extraction, `channels` tracking, optional mask byte, then the four
fields. -/
def processEntry (s : PatSt) (channelSelect : Nat) : PatSt × PatternEntry :=
  let ch := (channelSelect - 1) &&& 63
  let s0 := if s.channels ≤ ch then { s with channels := ch + 1 } else s
  let s1 := if channelSelect &&& 128 ≠ 0 then
      let r := nextByteP s0
      { r.2 with lastMask := upd r.2.lastMask ch r.1 }
    else s0
  let mask := s1.lastMask ch
  let r2 := procNoteField s1 ch mask
  let r3 := procInsField r2.1 ch mask
  let r4 := procVolField r3.1 ch mask
  let r5 := procEffectField r4.1 ch mask
  (r5.1, { Channel := ch, Note := r2.2, Instrument := r3.2, VolumeCommand := r4.2.1,
           VolumeParam := r4.2.2, Effect := r5.2.1, EffectParam := r5.2.2 })

theorem nextByteP_data_le (s : PatSt) : (nextByteP s).2.data.length ≤ s.data.length := by
  unfold nextByteP
  rcases s.data with - | ⟨b, rest⟩ <;> simp

theorem nextByteP_ne_zero (s : PatSt) (h : (nextByteP s).1 ≠ 0) :
    (nextByteP s).2.data.length + 1 = s.data.length := by
  unfold nextByteP at h ⊢
  rcases hd : s.data with - | ⟨b, rest⟩
  · rw [hd] at h
    simp at h
  · simp

theorem procNoteField_data_le (s : PatSt) (ch mask : Nat) :
    (procNoteField s ch mask).1.data.length ≤ s.data.length := by
  unfold procNoteField
  have h := nextByteP_data_le s
  split <;> split <;> simp <;> omega

theorem procInsField_data_le (s : PatSt) (ch mask : Nat) :
    (procInsField s ch mask).1.data.length ≤ s.data.length := by
  unfold procInsField
  have h := nextByteP_data_le s
  split <;> split <;> simp <;> omega

theorem procVolField_data_le (s : PatSt) (ch mask : Nat) :
    (procVolField s ch mask).1.data.length ≤ s.data.length := by
  unfold procVolField
  have h := nextByteP_data_le s
  split <;> split <;> simp <;> omega

theorem procEffectField_data_le (s : PatSt) (ch mask : Nat) :
    (procEffectField s ch mask).1.data.length ≤ s.data.length := by
  unfold procEffectField
  have h1 := nextByteP_data_le s
  have h2 := nextByteP_data_le { (nextByteP s).2 with
    lastEffect := upd (nextByteP s).2.lastEffect ch (nextByteP s).1 }
  split <;> split <;> simp at * <;> omega

theorem processEntry_data_le (s : PatSt) (cs : Nat) :
    (processEntry s cs).1.data.length ≤ s.data.length := by
  unfold processEntry
  dsimp only
  refine le_trans (procEffectField_data_le _ _ _) ?_
  refine le_trans (procVolField_data_le _ _ _) ?_
  refine le_trans (procInsField_data_le _ _ _) ?_
  refine le_trans (procNoteField_data_le _ _ _) ?_
  split
  · refine le_trans (nextByteP_data_le _) ?_
    split <;> exact Nat.le_refl _
  · split <;> exact Nat.le_refl _

/-- The inner loop of one row: read channel-select bytes and process an
entry for each until the terminator 0 (which the decoder also receives
once the data is exhausted). -/
def decodeRowLoop (s : PatSt) : List PatternEntry × PatSt :=
  let csel := (nextByteP s).1
  let s1 := (nextByteP s).2
  if csel = 0 then ([], s1)
  else
    let r := processEntry s1 csel
    let rr := decodeRowLoop r.1
    (r.2 :: rr.1, rr.2)
  termination_by s.data.length
  decreasing_by
  · rename_i h
    have h1 := nextByteP_ne_zero s h
    have h2 := processEntry_data_le (nextByteP s).2 (nextByteP s).1
    omega

/-- The row loop of `ItPattern.ToCommon` (`for row := 0; row < Rows`),
collecting each row's entries. -/
def decodeRowsLoop : Nat → PatSt → List (List PatternEntry) × PatSt
  | 0, s => ([], s)
  | n + 1, s =>
    let r := decodeRowLoop s
    let rr := decodeRowsLoop n r.2
    (r.1 :: rr.1, rr.2)

/-- `common.Pattern` (the `Rows`/`Channels` part that `ToCommon` fills). -/
structure CommonPattern where
  Channels : Nat
  Rows : List (List PatternEntry)
  deriving DecidableEq, Repr

/-- Fresh decoder state: all "last value" arrays zeroed, cursor at the
start. -/
def initPatSt (data : List Nat) : PatSt :=
  { data := data, fail := false, lastMask := fun _ => 0, lastNote := fun _ => 0,
    lastIns := fun _ => 0, lastVol := fun _ => 0, lastEffect := fun _ => 0,
    lastEffectParam := fun _ => 0, channels := 0 }

/-- `ItPattern.ToCommon`: unpack `rows` rows from `data`; missing bytes
read as zero (no error path — the function's signature admits none). -/
def itPatternToCommon (data : List Nat) (rows : Nat) : CommonPattern :=
  let r := decodeRowsLoop rows (initPatSt data)
  { Channels := r.2.channels, Rows := r.1 }

/-- The unpacking loop of `loadPattern` from the older loader revision:
identical row decoding (its entries are not collected there), but after
each row the `failure` flag — raised when `nextByte` ran past the end of
the data — aborts with `ErrInvalidSource`. -/
def loadPatternRows : Nat → PatSt → Except ItErr PatSt
  | 0, s => .ok s
  | n + 1, s =>
    let r := decodeRowLoop s
    if r.2.fail then .error .invalidSource
    else loadPatternRows n r.2

theorem nextByteP_fail_mono (s : PatSt) (h : s.fail = true) : (nextByteP s).2.fail = true := by
  unfold nextByteP
  rcases hd : s.data with - | ⟨b, rest⟩ <;> simp [h]

theorem procNoteField_fail_mono (s : PatSt) (ch mask : Nat) (h : s.fail = true) :
    (procNoteField s ch mask).1.fail = true := by
  unfold procNoteField
  have hn := nextByteP_fail_mono s h
  split <;> split <;> simp_all

theorem procInsField_fail_mono (s : PatSt) (ch mask : Nat) (h : s.fail = true) :
    (procInsField s ch mask).1.fail = true := by
  unfold procInsField
  have hn := nextByteP_fail_mono s h
  split <;> split <;> simp_all

theorem procVolField_fail_mono (s : PatSt) (ch mask : Nat) (h : s.fail = true) :
    (procVolField s ch mask).1.fail = true := by
  unfold procVolField
  have hn := nextByteP_fail_mono s h
  split <;> split <;> simp_all

theorem procEffectField_fail_mono (s : PatSt) (ch mask : Nat) (h : s.fail = true) :
    (procEffectField s ch mask).1.fail = true := by
  unfold procEffectField
  have h1 := nextByteP_fail_mono s h
  have h2 := nextByteP_fail_mono { (nextByteP s).2 with
    lastEffect := upd (nextByteP s).2.lastEffect ch (nextByteP s).1 } h1
  split <;> split <;> simp_all

theorem processEntry_fail_mono (s : PatSt) (cs : Nat) (h : s.fail = true) :
    (processEntry s cs).1.fail = true := by
  unfold processEntry
  dsimp only
  apply procEffectField_fail_mono
  apply procVolField_fail_mono
  apply procInsField_fail_mono
  apply procNoteField_fail_mono
  split
  · apply nextByteP_fail_mono
    split <;> simp_all
  · split <;> simp_all

theorem decodeRowLoop_fail_mono (s : PatSt) (h : s.fail = true) :
    (decodeRowLoop s).2.fail = true := by
  induction s using decodeRowLoop.induct with
  | case1 s csel hz =>
    rw [decodeRowLoop.eq_def, if_pos hz]
    exact nextByteP_fail_mono s h
  | case2 s csel s1 hz r ih =>
    rw [decodeRowLoop.eq_def, if_neg hz]
    dsimp only
    exact ih (processEntry_fail_mono _ _ (nextByteP_fail_mono s h))

theorem decodeRowsLoop_fail_mono (n : Nat) (s : PatSt) (h : s.fail = true) :
    (decodeRowsLoop n s).2.fail = true := by
  induction n generalizing s with
  | zero => exact h
  | succ n ih =>
    unfold decodeRowsLoop
    exact ih _ (decodeRowLoop_fail_mono s h)

theorem decodeRowsLoop_rows_length (n : Nat) (s : PatSt) :
    (decodeRowsLoop n s).1.length = n := by
  induction n generalizing s with
  | zero => rfl
  | succ n ih =>
    unfold decodeRowsLoop
    simp [ih]

theorem loadPatternRows_error_iff (n : Nat) (s : PatSt) (h : s.fail = false) :
    (loadPatternRows n s = .error .invalidSource ↔
      (decodeRowsLoop n s).2.fail = true) := by
  induction n generalizing s with
  | zero =>
    unfold loadPatternRows decodeRowsLoop
    simp [h]
  | succ n ih =>
    unfold loadPatternRows decodeRowsLoop
    dsimp only
    rcases hf : (decodeRowLoop s).2.fail
    · rw [if_neg (by simp [hf])]
      exact ih _ hf
    · rw [if_pos (by simp [hf])]
      constructor
      · intro
        exact decodeRowsLoop_fail_mono n _ hf
      · intro
        rfl

/-- Counterexample to C1 as stated: one declared row whose data ends right
after a channel-select byte asking for a mask byte (`0x81`).
`ItPattern.ToCommon` does not fail: it reads the missing mask byte as zero
and silently returns a partial result (one row with one empty entry for
channel 0), while the older `loadPattern` loop fails with `InvalidSource`
on the same input. -/
theorem c1_counterexample :
    itPatternToCommon [129] 1 = ⟨1, [[⟨0, 0, 0, 0, 0, 0, 0⟩]]⟩ ∧
    loadPatternRows 1 (initPatSt [129]) = .error .invalidSource := by
  constructor
  · simp [itPatternToCommon, decodeRowsLoop, decodeRowLoop, processEntry, nextByteP,
      initPatSt, procNoteField, procInsField, procVolField, procEffectField, PmaskNote,
      PmaskIns, PmaskVol, PmaskEffect, PmaskLastNote, PmaskLastIns, PmaskLastVol,
      PmaskLastEffect, upd]
    decide
  · simp [loadPatternRows, decodeRowLoop, processEntry, nextByteP, initPatSt,
      procNoteField, procInsField, procVolField, procEffectField, PmaskNote, PmaskIns,
      PmaskVol, PmaskEffect, PmaskLastNote, PmaskLastIns, PmaskLastVol, PmaskLastEffect,
      upd]

/-- Claim C1 (amended): when the packed byte stream is exhausted before
the declared number of rows has been decoded, the older `loadPattern` path
fails with `InvalidSource` — it errors exactly when some byte request ran
past the end of the data — but `ItPattern.ToCommon` has no error path at
all: it reads missing bytes as zero and returns a partial pattern that
still carries the declared number of rows. -/
theorem c1_loadPattern_fails_toCommon_total (data : List Nat) (rows : Nat) :
    (loadPatternRows rows (initPatSt data) = .error .invalidSource ↔
      (decodeRowsLoop rows (initPatSt data)).2.fail = true) ∧
    (itPatternToCommon data rows).Rows.length = rows := by
  refine ⟨loadPatternRows_error_iff rows (initPatSt data) rfl, ?_⟩
  unfold itPatternToCommon
  exact decodeRowsLoop_rows_length rows (initPatSt data)

/-- Largest `Channel + 1` over a row's entries (0 for an empty row). -/
def entriesMaxCh (l : List PatternEntry) : Nat :=
  l.foldr (fun e a => max (e.Channel + 1) a) 0

/-- Largest `Channel + 1` over all entries of all rows (0 when no entry
was emitted anywhere). -/
def rowsMaxCh (rows : List (List PatternEntry)) : Nat :=
  rows.foldr (fun row a => max (entriesMaxCh row) a) 0

theorem nextByteP_channels (s : PatSt) : (nextByteP s).2.channels = s.channels := by
  unfold nextByteP
  rcases hd : s.data with - | ⟨b, rest⟩ <;> simp

theorem procNoteField_channels (s : PatSt) (ch mask : Nat) :
    (procNoteField s ch mask).1.channels = s.channels := by
  unfold procNoteField
  have hn := nextByteP_channels s
  split <;> split <;> simp_all

theorem procInsField_channels (s : PatSt) (ch mask : Nat) :
    (procInsField s ch mask).1.channels = s.channels := by
  unfold procInsField
  have hn := nextByteP_channels s
  split <;> split <;> simp_all

theorem procVolField_channels (s : PatSt) (ch mask : Nat) :
    (procVolField s ch mask).1.channels = s.channels := by
  unfold procVolField
  have hn := nextByteP_channels s
  split <;> split <;> simp_all

theorem procEffectField_channels (s : PatSt) (ch mask : Nat) :
    (procEffectField s ch mask).1.channels = s.channels := by
  unfold procEffectField
  have h1 := nextByteP_channels s
  have h2 := nextByteP_channels { (nextByteP s).2 with
    lastEffect := upd (nextByteP s).2.lastEffect ch (nextByteP s).1 }
  split <;> split <;> simp_all

theorem processEntry_channels (s : PatSt) (cs : Nat) :
    (processEntry s cs).1.channels = max s.channels (((cs - 1) &&& 63) + 1) ∧
    (processEntry s cs).2.Channel = (cs - 1) &&& 63 := by
  unfold processEntry
  dsimp only
  rw [procEffectField_channels, procVolField_channels, procInsField_channels,
    procNoteField_channels]
  constructor
  · split
    · rw [nextByteP_channels]
      split <;> simp_all <;> omega
    · split <;> simp_all <;> omega
  · rfl

theorem decodeRowLoop_channels (s : PatSt) :
    (decodeRowLoop s).2.channels = max s.channels (entriesMaxCh (decodeRowLoop s).1) := by
  induction s using decodeRowLoop.induct with
  | case1 s csel hz =>
    rw [decodeRowLoop.eq_def, if_pos hz]
    dsimp only
    rw [nextByteP_channels]
    simp [entriesMaxCh]
  | case2 s csel s1 hz r ih =>
    rw [decodeRowLoop.eq_def, if_neg hz]
    dsimp only
    obtain ⟨hch, hentry⟩ := processEntry_channels (nextByteP s).2 (nextByteP s).1
    rw [ih, hch, nextByteP_channels]
    simp only [entriesMaxCh, List.foldr_cons, hentry]
    have : entriesMaxCh (decodeRowLoop (processEntry (nextByteP s).2 (nextByteP s).1).1).1 =
        List.foldr (fun e a => max (e.Channel + 1) a) 0
          (decodeRowLoop (processEntry (nextByteP s).2 (nextByteP s).1).1).1 := rfl
    rw [← this]
    omega

theorem decodeRowsLoop_channels (n : Nat) (s : PatSt) :
    (decodeRowsLoop n s).2.channels =
      max s.channels (rowsMaxCh (decodeRowsLoop n s).1) := by
  induction n generalizing s with
  | zero => simp [decodeRowsLoop, rowsMaxCh]
  | succ n ih =>
    unfold decodeRowsLoop
    dsimp only
    rw [ih, decodeRowLoop_channels]
    simp only [rowsMaxCh, List.foldr_cons]
    have : rowsMaxCh (decodeRowsLoop n (decodeRowLoop s).2).1 =
        List.foldr (fun row a => max (entriesMaxCh row) a) 0
          (decodeRowsLoop n (decodeRowLoop s).2).1 := rfl
    rw [← this]
    omega

/-- Claim C10: the `Channels` field computed by `ItPattern.ToCommon`
equals 1 plus the largest channel index appearing in any emitted entry of
any row (0 when no channel-select byte appears in the whole pattern). -/
theorem c10_channels_is_max_entry_channel (data : List Nat) (rows : Nat) :
    (itPatternToCommon data rows).Channels =
      rowsMaxCh (itPatternToCommon data rows).Rows := by
  unfold itPatternToCommon
  dsimp only
  rw [decodeRowsLoop_channels]
  simp [initPatSt]

set_option maxRecDepth 10000 in
set_option maxHeartbeats 1000000 in
/-- Claim C7: `translatePatternVolume` maps every raw volume byte exactly
per the claimed table — `[0,64]→(1,v)`, `[65,74]→(2,v-65)`,
`[75,84]→(3,v-75)`, `[85,94]→(4,v-85)`, `[95,104]→(5,v-95)`,
`[105,114]→(6,v-105)`, `[115,124]→(7,v-125)` with uint8 (mod 256)
arithmetic, `[125,127]→(0,0)`, `128→(8,0)`, `[129,202]→(9,v-129)`,
`[203,212]→(10,v-203)`, `[213,255]→(0,0)` — including the boundary points
`64→(1,64)`, `65→(2,0)`, `128→(8,0)`, `203→(10,0)`, `213→(0,0)`. -/
theorem c7_translatePatternVolume_table :
    (∀ v : Nat, v < 256 → v ≤ 64 → translatePatternVolume v = (1, v)) ∧
    (∀ v : Nat, v < 256 → 65 ≤ v → v ≤ 74 → translatePatternVolume v = (2, v - 65)) ∧
    (∀ v : Nat, v < 256 → 75 ≤ v → v ≤ 84 → translatePatternVolume v = (3, v - 75)) ∧
    (∀ v : Nat, v < 256 → 85 ≤ v → v ≤ 94 → translatePatternVolume v = (4, v - 85)) ∧
    (∀ v : Nat, v < 256 → 95 ≤ v → v ≤ 104 → translatePatternVolume v = (5, v - 95)) ∧
    (∀ v : Nat, v < 256 → 105 ≤ v → v ≤ 114 → translatePatternVolume v = (6, v - 105)) ∧
    (∀ v : Nat, v < 256 → 115 ≤ v → v ≤ 124 →
      translatePatternVolume v = (7, (v + 256 - 125) % 256)) ∧
    (∀ v : Nat, v < 256 → 125 ≤ v → v ≤ 127 → translatePatternVolume v = (0, 0)) ∧
    (translatePatternVolume 128 = (8, 0)) ∧
    (∀ v : Nat, v < 256 → 129 ≤ v → v ≤ 202 → translatePatternVolume v = (9, v - 129)) ∧
    (∀ v : Nat, v < 256 → 203 ≤ v → v ≤ 212 → translatePatternVolume v = (10, v - 203)) ∧
    (∀ v : Nat, v < 256 → 213 ≤ v → translatePatternVolume v = (0, 0)) ∧
    translatePatternVolume 64 = (1, 64) ∧ translatePatternVolume 65 = (2, 0) ∧
    translatePatternVolume 203 = (10, 0) ∧ translatePatternVolume 213 = (0, 0) := by
  refine ⟨?_, ?_, ?_, ?_, ?_, ?_, ?_, ?_, ?_, ?_, ?_, ?_, ?_, ?_, ?_, ?_⟩ <;> decide

/-- Witness for C7: the fine-vol-up range applied at its lower bound. -/
theorem c7_witness : translatePatternVolume 65 = (2, 65 - 65) :=
  c7_translatePatternVolume_table.2.1 65 (by decide) (by decide) (by decide)

theorem or_eq_zero_left {a b : Nat} (h : a ||| b = 0) : a = 0 := by
  apply Nat.eq_of_testBit_eq
  intro i
  have h2 := congrArg (fun n => Nat.testBit n i) h
  simp only [Nat.testBit_or, Nat.zero_testBit] at h2 ⊢
  rcases Bool.or_eq_false_iff.mp h2 with ⟨ha, -⟩
  exact ha

theorem nextByteP_cons (t : PatSt) (b : Nat) (r : List Nat) (h : t.data = b :: r) :
    nextByteP t = (b, { t with data := r }) := by
  unfold nextByteP
  rw [h]

/-- Claim C8: when a row gives a channel an explicit volume byte `v`
(mask with the volume-present bit 0x04), the decoder stores `v` in the
channel's `lastVol` slot and emits `translatePatternVolume v`; and when a
later row selects the same channel (`ch = (cs - 1) &&& 63`) with a fresh
mask having only the repeat-last-volume bit 0x40 set, and the stored
`lastVol` still holds that value, the decoder emits the identical volume
command/param pair while consuming only the select and mask bytes — no
volume byte is read from the stream and `lastVol` is unchanged. -/
theorem c8_repeat_last_volume (s1 : PatSt) (ch m1 v : Nat) (rest1 : List Nat)
    (s2 : PatSt) (cs : Nat) (rest2 : List Nat)
    (hd1 : s1.data = v :: rest1) (hm1 : m1 &&& PmaskVol ≠ 0)
    (hcs : cs &&& 128 ≠ 0) (hd2 : s2.data = 64 :: rest2)
    (hch : (cs - 1) &&& 63 = ch)
    (hlv : s2.lastVol ch = (procVolField s1 ch m1).1.lastVol ch) :
    ((procVolField s1 ch m1).1.lastVol ch = v ∧
      (procVolField s1 ch m1).2 = translatePatternVolume v) ∧
    ((processEntry s2 cs).2.VolumeCommand = (translatePatternVolume v).1 ∧
      (processEntry s2 cs).2.VolumeParam = (translatePatternVolume v).2 ∧
      (processEntry s2 cs).1.data = rest2 ∧
      (processEntry s2 cs).1.lastVol = s2.lastVol) := by
  have hm1' : m1 &&& (PmaskVol ||| PmaskLastVol) ≠ 0 := by
    rw [Nat.and_or_distrib_left]
    intro h0
    exact hm1 (or_eq_zero_left h0)
  have hpart1 : (procVolField s1 ch m1).1.lastVol ch = v ∧
      (procVolField s1 ch m1).2 = translatePatternVolume v := by
    unfold procVolField
    rw [if_pos hm1]
    rw [nextByteP_cons s1 v rest1 hd1]
    rw [if_pos hm1']
    simp [upd]
  refine ⟨hpart1, ?_⟩
  have hlv2 : s2.lastVol ((cs - 1) &&& 63) = v := by
    rw [hch, hlv, hpart1.1]
  unfold processEntry
  dsimp only
  rw [if_pos hcs]
  split
  · rw [nextByteP_cons { s2 with channels := ((cs - 1) &&& 63) + 1 } 64 rest2 hd2]
    simp [procNoteField, procInsField, procVolField, procEffectField, upd, PmaskNote,
      PmaskIns, PmaskVol, PmaskEffect, PmaskLastNote, PmaskLastIns, PmaskLastVol,
      PmaskLastEffect,
      show ((64:Nat) &&& 1) = 0 from by decide, show ((64:Nat) &&& 17) = 0 from by decide,
      show ((64:Nat) &&& 2) = 0 from by decide, show ((64:Nat) &&& 34) = 0 from by decide,
      show ((64:Nat) &&& 4) = 0 from by decide, show ((64:Nat) &&& 68) = 64 from by decide,
      show ((64:Nat) &&& 8) = 0 from by decide, show ((64:Nat) &&& 136) = 0 from by decide,
      hlv2]
  · rw [nextByteP_cons s2 64 rest2 hd2]
    simp [procNoteField, procInsField, procVolField, procEffectField, upd, PmaskNote,
      PmaskIns, PmaskVol, PmaskEffect, PmaskLastNote, PmaskLastIns, PmaskLastVol,
      PmaskLastEffect,
      show ((64:Nat) &&& 1) = 0 from by decide, show ((64:Nat) &&& 17) = 0 from by decide,
      show ((64:Nat) &&& 2) = 0 from by decide, show ((64:Nat) &&& 34) = 0 from by decide,
      show ((64:Nat) &&& 4) = 0 from by decide, show ((64:Nat) &&& 68) = 64 from by decide,
      show ((64:Nat) &&& 8) = 0 from by decide, show ((64:Nat) &&& 136) = 0 from by decide,
      hlv2]

/-- Witness for C8: channel 5, explicit volume byte 64 in row one, then a
select byte `0x86` with fresh mask `0x40` in a later row. -/
theorem c8_witness :
    ((procVolField (initPatSt [64]) 5 4).1.lastVol 5 = 64 ∧
      (procVolField (initPatSt [64]) 5 4).2 = translatePatternVolume 64) ∧
    ((processEntry { initPatSt [64] with lastVol := upd (fun _ => 0) 5 64 } 134).2.VolumeCommand =
        (translatePatternVolume 64).1 ∧
      (processEntry { initPatSt [64] with lastVol := upd (fun _ => 0) 5 64 } 134).2.VolumeParam =
        (translatePatternVolume 64).2 ∧
      (processEntry { initPatSt [64] with lastVol := upd (fun _ => 0) 5 64 } 134).1.data = [] ∧
      (processEntry { initPatSt [64] with lastVol := upd (fun _ => 0) 5 64 } 134).1.lastVol =
        ({ initPatSt [64] with lastVol := upd (fun _ => 0) 5 64 } : PatSt).lastVol) :=
  c8_repeat_last_volume (initPatSt [64]) 5 4 64 []
    { initPatSt [64] with lastVol := upd (fun _ => 0) 5 64 } 134 []
    rfl (by decide) (by decide) rfl (by decide) rfl

end Modlib
